import Mathlib

/-!
Shallow embedding of the WorldEngine rotor-cipher core
(`rotor_and_reflector.py`, `keyboard_and_plugboard.py`, `inop.py`, `main.py`),
with theorems checking the specification's claims.

Strings are modelled as `List Char`.  Python's signed `%` on expressions of
the form `x - y` with `0 ≤ y ≤ size` is modelled by adding one multiple of
`size` before taking `Nat` remainder, which yields the same residue.
Fallible Python code (constructors and lookups that raise) returns
`Option`/`Except`.
-/

namespace WorldEngine

abbrev Chars := List Char

/-- `rotor_and_reflector.Rotor`: wiring lookup tables `_fwd`/`_rev`
(integer lists), a notch set, a rotating `position` and a `ring_setting`. -/
structure Rotor where
  alphabet : Chars
  fwd : List Nat
  rev : List Nat
  notches : Chars
  position : Nat
  ring_setting : Nat
deriving DecidableEq

namespace Rotor

/-- `self.size = len(alphabet)`. -/
def size (r : Rotor) : Nat := r.alphabet.length

/-- `Rotor.__init__`: fails (raises `ValueError`) unless the wiring is a
permutation of the alphabet (`sorted(wiring) != sorted(alphabet)` in the
code, which is exactly a permutation test); builds
`_fwd = [alphabet.index(c) for c in wiring]` and
`_rev = [wiring.index(c) for c in alphabet]`. -/
def mkRotor (wiring notches alphabet : Chars) : Option Rotor :=
  if wiring.isPerm alphabet then
    some { alphabet := alphabet
           fwd := wiring.map (fun c => alphabet.indexOf c)
           rev := alphabet.map (fun c => wiring.indexOf c)
           notches := notches
           position := 0
           ring_setting := 0 }
  else none

/-- `set_ring`: `ring_setting = (ring - 1) % size` (1-based input). -/
def set_ring (r : Rotor) (ring : Nat) : Rotor :=
  { r with ring_setting := (ring - 1) % r.size }

/-- `step`: advance `position` by one (mod size) and report whether the
symbol at the *new* position is a notch. -/
def step (r : Rotor) : Bool × Rotor :=
  let p := (r.position + 1) % r.size
  (r.notches.contains (r.alphabet.getD p ' '), { r with position := p })

/-- `forward`: `shift = (sig + position - ring_setting) % size`;
look up `_fwd[shift]`; return `(mapped - position + ring_setting) % size`.
One multiple of `size` is added inside each remainder so the subtraction
stays in `Nat`; the residue is unchanged whenever
`ring_setting ≤ size` and `position ≤ size`, which holds in every
constructed rotor. -/
def forward (r : Rotor) (sig : Nat) : Nat :=
  let shift := (sig + r.position + (r.size - r.ring_setting)) % r.size
  let mapped := r.fwd.getD shift 0
  (mapped + r.ring_setting + (r.size - r.position)) % r.size

/-- `backward`: same shape as `forward`, looking up `_rev`. -/
def backward (r : Rotor) (sig : Nat) : Nat :=
  let shift := (sig + r.position + (r.size - r.ring_setting)) % r.size
  let mapped := r.rev.getD shift 0
  (mapped + r.ring_setting + (r.size - r.position)) % r.size

end Rotor

/-- `rotor_and_reflector.Reflector`: integer map `_map` plus a rotating
`position`. -/
structure Reflector where
  alphabet : Chars
  map : List Nat
  position : Nat
deriving DecidableEq

namespace Reflector

/-- The per-index check in `Reflector.__init__`: `j = alphabet.index(c)`
(raises if `c` is not in the alphabet), then requires
`wiring[j] == alphabet[i]` and `i != j`. -/
def involutionCheck (wiring alphabet : Chars) : Bool :=
  (List.range wiring.length).all fun i =>
    let c := wiring.getD i ' '
    alphabet.contains c &&
      (wiring.getD (alphabet.indexOf c) ' ' == alphabet.getD i ' ') &&
      !(i == alphabet.indexOf c)

/-- `Reflector.__init__`: length check, involution/no-fixed-point check,
then `_map = [alphabet.index(c) for c in wiring]`, `position = 0`. -/
def mkReflector (wiring alphabet : Chars) : Option Reflector :=
  if wiring.length == alphabet.length && involutionCheck wiring alphabet then
    some { alphabet := alphabet
           map := wiring.map (fun c => alphabet.indexOf c)
           position := 0 }
  else none

/-- `rotate_to_letter`: set `position` to the alphabet index of `L`,
failing when `L` is not in the alphabet. -/
def rotate_to_letter (rf : Reflector) (L : Char) : Option Reflector :=
  if rf.alphabet.contains L then
    some { rf with position := rf.alphabet.indexOf L }
  else none

/-- `reflect`: `adjusted = (sig + position) % size`; `mapped = _map[adjusted]`;
return `(mapped - position) % size` (one multiple of `size` added to stay
in `Nat`, same residue since `position ≤ size`). -/
def reflect (rf : Reflector) (sig : Nat) : Nat :=
  let size := rf.alphabet.length
  let adjusted := (sig + rf.position) % size
  let mapped := rf.map.getD adjusted 0
  (mapped + (size - rf.position)) % size

end Reflector

/-- `keyboard_and_plugboard.Keyboard`. -/
structure Keyboard where
  alphabet : Chars
deriving DecidableEq

namespace Keyboard

/-- `forward`: letter to signal index, `ValueError` for a symbol outside the
alphabet (the Python message interpolates the offending character). -/
def forward (kb : Keyboard) (letter : Char) : Except String Nat :=
  if kb.alphabet.contains letter then .ok (kb.alphabet.indexOf letter)
  else .error "Invalid character for current alphabet."

/-- `backward`: signal index to letter, `ValueError` when the signal is out
of range. -/
def backward (kb : Keyboard) (signal : Nat) : Except String Char :=
  if signal < kb.alphabet.length then .ok (kb.alphabet.getD signal ' ')
  else .error "Signal out of range"

end Keyboard

/-- `keyboard_and_plugboard.Plugboard`: the validated pair list; the
mapping dict is identity on the alphabet with each pair `(a, b)` committed
as `mapping[a] = b; mapping[b] = a`. -/
structure Plugboard where
  alphabet : Chars
  pairs : List (Char × Char)
deriving DecidableEq

namespace Plugboard

/-- The mapping dict built by `Plugboard.__init__`: start from the identity
and commit each pair in order (`mapping[a], mapping[b] = b, a`; a later
write to the same key would win, as in a Python dict). -/
def mappingOf (pairs : List (Char × Char)) : Char → Char :=
  pairs.foldl
    (fun m p => fun c => if c = p.2 then p.1 else if c = p.1 then p.2 else m c)
    (fun c => c)

/-- `Plugboard._map` (aliased as both `forward` and `backward`): look up the
letter for the signal, map it through the dict, return the mapped letter's
index. -/
def passSignal (pb : Plugboard) (signal : Nat) : Nat :=
  let letter := pb.alphabet.getD signal ' '
  let mapped := mappingOf pb.pairs letter
  pb.alphabet.indexOf mapped

end Plugboard

/-- The forward pass of the signal through the rotor stack, right to left
(step 4 of `Inop.encypher`: `for rotor in reversed(self.rotors)`). -/
def fwdChain (rotors : List Rotor) (sig : Nat) : Nat :=
  (rotors.reverse).foldl (fun s r => r.forward s) sig

/-- The backward pass, left to right (step 6 of `Inop.encypher`). -/
def bwdChain (rotors : List Rotor) (sig : Nat) : Nat :=
  rotors.foldl (fun s r => r.backward s) sig

/-- `inop.Inop`: keyboard, plugboard, ordered rotor list, reflector.
`stepReflectorFlag` models the `_step_reflector_flag` attribute that
`CipherPipeline.__init__` writes onto the machine object; nothing in
`Inop` ever reads it. -/
structure Inop where
  kb : Keyboard
  pb : Plugboard
  rotors : List Rotor
  reflector : Reflector
  stepReflectorFlag : Bool
deriving DecidableEq

/-- The fallback cascade of `Inop._step_rotors`, on the *reversed* rotor
list: step the current rotor while the carry is true, stop propagating on
the first step that reports no notch hit. -/
def cascade : List Rotor → List Rotor
  | [] => []
  | r :: rest =>
    let s := r.step
    if s.1 then s.2 :: cascade rest else s.2 :: rest

namespace Inop

/-- `Inop._step_rotors`: historical double-stepping when exactly 3 rotors
are present (both notch tests read the positions before anything moves),
otherwise the rightmost-inward cascade. -/
def stepRotorList : List Rotor → List Rotor
  | [left, middle, right] =>
    if (left.alphabet.getD middle.position ' ') ∈ middle.notches then
      [(left.step).2, (middle.step).2, (right.step).2]
    else if (left.alphabet.getD right.position ' ') ∈ right.notches then
      [left, (middle.step).2, (right.step).2]
    else
      [left, middle, (right.step).2]
  | rs => (cascade rs.reverse).reverse

/-- The machine after `_step_rotors` has run. -/
def stepped (M : Inop) : Inop := { M with rotors := stepRotorList M.rotors }

/-- Steps 3–7 of `Inop.encypher` (plugboard in, rotors right-to-left,
reflector, rotors left-to-right, plugboard out), on the already-stepped
machine. -/
def pathCore (M : Inop) (sig : Nat) : Nat :=
  M.pb.passSignal
    (bwdChain M.rotors (M.reflector.reflect (fwdChain M.rotors (M.pb.passSignal sig))))

/-- Steps 2–8 of `Inop.encypher` on an already-stepped machine: keyboard
in, signal path, keyboard out. -/
def encChar (M : Inop) (letter : Char) : Except String Char := do
  let sig ← M.kb.forward letter
  M.kb.backward (M.pathCore sig)

/-- `Inop.encypher`: step the rotors first, then run the signal path.  The
returned machine is the post-step state; it is reached even when the
keyboard rejects the input letter (the exception propagates after the
rotors have already moved). -/
def encypher (M : Inop) (letter : Char) : Except String Char × Inop :=
  (encChar M.stepped letter, M.stepped)

/-- `zip(self.rotors, key_part)` with `rotor.position = alphabet.index(letter)`;
`index` raises when the letter is absent. -/
def setKey : List Rotor → Chars → Option (List Rotor)
  | rs, [] => some rs
  | [], _ => some []
  | r :: rs, ch :: chs =>
    if r.alphabet.contains ch then
      (setKey rs chs).map (fun rest => { r with position := r.alphabet.indexOf ch } :: rest)
    else none

/-- `Inop.__init__`: length checks on ring settings and master key, then
`set_rings`, `set_key(master_key[:-1])` and
`reflector.rotate_to_letter(master_key[-1])`.  The pipeline flag attribute
does not exist yet; it is recorded as `false`. -/
def mkInop (kb : Keyboard) (pb : Plugboard) (rotors : List Rotor)
    (reflector : Reflector) (ring_settings : List Nat) (master_key : Chars) :
    Option Inop :=
  if ring_settings.length = rotors.length ∧
      master_key.length = rotors.length + 1 then
    let ringed := (rotors.zip ring_settings).map (fun p => p.1.set_ring p.2)
    do
      let keyed ← setKey ringed master_key.dropLast
      let lastCh ← master_key.getLast?
      let refl ← reflector.rotate_to_letter lastCh
      some { kb := kb, pb := pb, rotors := keyed, reflector := refl
             stepReflectorFlag := false }
  else none

end Inop

/-- Run `Inop.encypher` over a string, threading the machine state (the body
of `MachineContext.encipher_block` after its rewind).  On an error the
remaining symbols are not processed. -/
def runBlock (M : Inop) : Chars → Except String Chars × Inop
  | [] => (.ok [], M)
  | c :: cs =>
    let step := M.encypher c
    match step.1 with
    | .ok c' =>
      let rest := runBlock step.2 cs
      (rest.1.map (fun u => c' :: u), rest.2)
    | .error e => (.error e, step.2)

/-- `main.MachineContext`: the machine, the suite alphabet and the stored
master key used by `rewind`. -/
structure MachineContext where
  machine : Inop
  alphabet : Chars
  masterKey : Chars
deriving DecidableEq

namespace MachineContext

/-- `MachineContext.rewind`: `set_key(master_key[:-1])` and
`reflector.rotate_to_letter(master_key[-1])` (the latter raises on an
empty master key or a letter outside the alphabet). -/
def rewind (ctx : MachineContext) : Option Inop := do
  let rotors' ← Inop.setKey ctx.machine.rotors ctx.masterKey.dropLast
  let lastCh ← ctx.masterKey.getLast?
  let refl' ← ctx.machine.reflector.rotate_to_letter lastCh
  some { ctx.machine with rotors := rotors', reflector := refl' }

/-- `MachineContext.encipher_block`: rewind, then encipher the text symbol
by symbol.  The Python method mutates `ctx.machine`, but every caller
rewinds again before the next block, so the result of each call is the
pure function of `(ctx, text)` modelled here. -/
def encipher_block (ctx : MachineContext) (text : Chars) : Except String Chars :=
  match ctx.rewind with
  | none => .error "rewind failed"
  | some M => (runBlock M text).1

end MachineContext

/-- `utilities.preprocess_message`: upper-case, replace spaces by `'#'`
when the alphabet has `'#'` (else drop them), and drop symbols outside the
alphabet. -/
def preprocess_message (msg : Chars) (alpha : Chars) : Chars :=
  ((msg.map Char.toUpper).flatMap fun c =>
      if c = ' ' then (if '#' ∈ alpha then ['#'] else []) else [c]).filter
    fun c => alpha.contains c

/-- `main.pad_message`: the code computes a noise budget from `base_noise`,
`block` and the message length, draws `front_len = randbelow(n + 1)` and
fills both sides with `secrets.choice(alpha)` symbols.  The embedding is
parameterised directly by the drawn noise strings `front` and `back`,
which covers every random outcome; the result is
`prefix + msg + suffix`. -/
def pad_message (front : Chars) (msg : Chars) (back : Chars) : Chars :=
  front ++ msg ++ back

/-- Does `pat` occur in `full` at index `i`? -/
def subAt (full pat : Chars) (i : Nat) : Bool :=
  (full.drop i).take pat.length == pat

/-- All indices at which `pat` occurs in `full`, in increasing order. -/
def occurrencesOf (full pat : Chars) : List Nat :=
  (List.range (full.length + 1)).filter (fun i => subAt full pat i)

/-- Python `str.find`: the smallest index at which `pat` occurs
(`-1`, modelled as `none`, when it does not occur). -/
def pyFind (full pat : Chars) : Option Nat := (occurrencesOf full pat).head?

/-- Python `str.rfind`: the largest index at which `pat` occurs. -/
def pyRFind (full pat : Chars) : Option Nat := (occurrencesOf full pat).getLast?

/-- `main.extract_message`: `i, j = full.find(marker), full.rfind(marker)`;
raise unless both exist and `i != j`; return `full[i + len(marker) : j]`. -/
def extract_message (full marker : Chars) : Except String Chars :=
  match pyFind full marker, pyRFind full marker with
  | some i, some j =>
    if i = j then .error "Markers not found - padding removal failed"
    else .ok ((full.drop (i + marker.length)).take (j - (i + marker.length)))
  | _, _ => .error "Markers not found - padding removal failed"

/-- `main.Config`: the pipeline switches. -/
structure Config where
  double_pass : Bool := true
  do_padding : Bool := true
  step_reflector : Bool := true
  block : Nat := 5
  base_noise : Nat := 8
  marker_len : Nat := 5
deriving DecidableEq

/-- `CipherPipeline.__init__` writes `cfg.step_reflector` onto the machine
as `_step_reflector_flag`. -/
def pipelineCtx (ctx : MachineContext) (cfg : Config) : MachineContext :=
  { ctx with machine := { ctx.machine with stepReflectorFlag := cfg.step_reflector } }

/-- `s.replace("#", " ")` at the end of `CipherPipeline.decrypt`
(character-wise, since both pattern and replacement are single symbols). -/
def replaceHashes (s : Chars) : Chars :=
  s.map fun c => if c = '#' then ' ' else c

/-- `CipherPipeline.encrypt`.  The random marker and the two random noise
strings of `pad_message` are passed in explicitly; with padding off they
are ignored and the marker returned is `none`, exactly as in the code. -/
def encrypt (ctx : MachineContext) (cfg : Config) (msg : Chars)
    (marker front back : Chars) : Except String (Chars × Option Chars) :=
  let ctx := pipelineCtx ctx cfg
  let wm : Chars × Option Chars :=
    if cfg.do_padding then
      (pad_message front (marker ++ msg ++ marker) back, some marker)
    else (msg, none)
  let clean := preprocess_message wm.1 ctx.alphabet
  if cfg.double_pass then do
    let stage1 ← ctx.encipher_block clean
    let cipher ← ctx.encipher_block stage1.reverse
    .ok (cipher, wm.2)
  else do
    let cipher ← ctx.encipher_block clean
    .ok (cipher, wm.2)

/-- The enciphering passes at the start of `CipherPipeline.decrypt`
(identical in shape to the passes of `encrypt`). -/
def decryptPasses (ctx : MachineContext) (cfg : Config) (cipher : Chars) :
    Except String Chars :=
  if cfg.double_pass then do
    let stage1 ← ctx.encipher_block cipher
    ctx.encipher_block stage1.reverse
  else ctx.encipher_block cipher

/-- `CipherPipeline.decrypt`: the mirrored passes, then
`extract_message` when padding is on and a marker was supplied, then
`replace("#", " ")`.  Errors (including `MarkerNotFound`) propagate. -/
def decrypt (ctx : MachineContext) (cfg : Config) (cipher : Chars)
    (marker : Option Chars) : Except String Chars :=
  let ctx := pipelineCtx ctx cfg
  (do
    let full_plain ← decryptPasses ctx cfg cipher
    let real ←
      match cfg.do_padding, marker with
      | true, some mk => extract_message full_plain mk
      | _, _ => .ok full_plain
    .ok (replaceHashes real))

/-! ### The wheel catalog entries used by the claims (`utilities.py`) -/

def Alpha26 : Chars := "ABCDEFGHIJKLMNOPQRSTUVWXYZ".toList

def rotorI : Option Rotor :=
  Rotor.mkRotor "EKMFLGDQVZNTOWYHXUSPAIBRCJ".toList "Q".toList Alpha26

def rotorII : Option Rotor :=
  Rotor.mkRotor "AJDKSIRUXBLHWTMCQGZNPYFVOE".toList "E".toList Alpha26

def rotorIII : Option Rotor :=
  Rotor.mkRotor "BDFHJLCPRTXVZNYEIWGAKMUSQO".toList "V".toList Alpha26

def reflectorB : Option Reflector :=
  Reflector.mkReflector "YRUHQSLDPXNGOKMIEBFZCWVJAT".toList Alpha26

/-- The classical machine of the concrete test vector: rotors I, II, III,
reflector B, no plugboard pairs, ring settings `[1,1,1]`, master key
`"AAAA"` (positions `AAA`, reflector rotated to `'A'`). -/
def legacyInop : Option Inop := do
  let rI ← rotorI
  let rII ← rotorII
  let rIII ← rotorIII
  let refB ← reflectorB
  Inop.mkInop ⟨Alpha26⟩ ⟨Alpha26, []⟩ [rI, rII, rIII] refB [1, 1, 1]
    "AAAA".toList

/-! ### Validity invariants

These record what a successful construction (`mkRotor`, `mkReflector`, the
plugboard validation loop, `mkInop` on a single-suite wheel pool) ensures,
in the form the correctness proofs consume.  Bridge lemmas below derive
them from the constructors. -/

/-- Invariants of a successfully constructed rotor over the alphabet
`alpha` (an `Alphabet` is an ordered sequence of *unique* symbols). -/
def Rotor.Valid (r : Rotor) (alpha : Chars) : Prop :=
  r.alphabet = alpha ∧
  r.fwd.length = r.size ∧
  r.rev.length = r.size ∧
  (∀ i < r.size, r.fwd.getD i 0 < r.size) ∧
  (∀ i < r.size, r.rev.getD i 0 < r.size) ∧
  (∀ i < r.size, r.rev.getD (r.fwd.getD i 0) 0 = i) ∧
  (∀ i < r.size, r.fwd.getD (r.rev.getD i 0) 0 = i) ∧
  r.position < r.size ∧
  r.ring_setting < r.size

instance (r : Rotor) (alpha : Chars) : Decidable (r.Valid alpha) := by
  unfold Rotor.Valid; infer_instance

/-- Invariants of a successfully constructed reflector: a bounded
involution of the signal range with no fixed point. -/
def Reflector.Valid (rf : Reflector) (alpha : Chars) : Prop :=
  rf.alphabet = alpha ∧
  rf.map.length = alpha.length ∧
  (∀ i < alpha.length, rf.map.getD i 0 < alpha.length) ∧
  (∀ i < alpha.length, rf.map.getD (rf.map.getD i 0) 0 = i) ∧
  (∀ i < alpha.length, rf.map.getD i 0 ≠ i) ∧
  rf.position < alpha.length

instance (rf : Reflector) (alpha : Chars) : Decidable (rf.Valid alpha) := by
  unfold Reflector.Valid; infer_instance

/-- What the `Plugboard.__init__` validation loop guarantees about the
pair list: no symbol used twice, no self-pair, all symbols in the
alphabet. -/
def pairsOk (pairs : List (Char × Char)) (alpha : Chars) : Prop :=
  (pairs.flatMap fun p => [p.1, p.2]).Nodup ∧
  ∀ p ∈ pairs, p.1 ≠ p.2 ∧ p.1 ∈ alpha ∧ p.2 ∈ alpha

instance (pairs : List (Char × Char)) (alpha : Chars) :
    Decidable (pairsOk pairs alpha) := by
  unfold pairsOk; infer_instance

/-- A validly constructed engine: nonempty duplicate-free alphabet shared
by keyboard, plugboard, every rotor and the reflector (a session draws all
wheels from one suite), with each component's own invariant. -/
def Inop.Valid (M : Inop) : Prop :=
  0 < M.kb.alphabet.length ∧
  M.kb.alphabet.Nodup ∧
  M.pb.alphabet = M.kb.alphabet ∧
  pairsOk M.pb.pairs M.kb.alphabet ∧
  (∀ r ∈ M.rotors, r.Valid M.kb.alphabet) ∧
  M.reflector.Valid M.kb.alphabet

instance (M : Inop) : Decidable M.Valid := by
  unfold Inop.Valid; infer_instance

/-- A valid machine context: valid machine, the suite alphabet recorded on
the context, and a master key of length `rotors + 1` drawn from the
alphabet. -/
def MachineContext.Valid (ctx : MachineContext) : Prop :=
  ctx.machine.Valid ∧
  ctx.alphabet = ctx.machine.kb.alphabet ∧
  ctx.masterKey.length = ctx.machine.rotors.length + 1 ∧
  (∀ ch ∈ ctx.masterKey, ch ∈ ctx.machine.kb.alphabet)

instance (ctx : MachineContext) : Decidable ctx.Valid := by
  unfold MachineContext.Valid; infer_instance

/-! ### Concrete machines used as witnesses and counterexamples -/

/-- Fallback machine for `Option.getD` (never actually reached). -/
def fallbackInop : Inop :=
  { kb := ⟨[]⟩, pb := ⟨[], []⟩, rotors := [], reflector := ⟨[], [], 0⟩
    stepReflectorFlag := false }

/-- The classical machine, extracted from `legacyInop`. -/
def legacyM : Inop := legacyInop.getD fallbackInop

/-- The classical machine with the pipeline's moving-reflector flag set. -/
def legacyFlagged : Inop := { legacyM with stepReflectorFlag := true }

/-- The classical machine wrapped in a context with master key `AAAA`. -/
def legacyCtx : MachineContext :=
  { machine := legacyM, alphabet := Alpha26, masterKey := "AAAA".toList }

/-- A 4-symbol alphabet containing `'#'`, for the pipeline
counterexamples. -/
def alpha4 : Chars := ['A', 'B', '#', 'D']

/-- A one-rotor machine over `alpha4`. -/
def tinyInop : Option Inop := do
  let r ← Rotor.mkRotor ['B', '#', 'D', 'A'] [] alpha4
  let refl ← Reflector.mkReflector ['B', 'A', 'D', '#'] alpha4
  Inop.mkInop ⟨alpha4⟩ ⟨alpha4, []⟩ [r] refl [1] ['A', 'A']

def tinyCtx : MachineContext :=
  { machine := tinyInop.getD fallbackInop, alphabet := alpha4
    masterKey := ['A', 'A'] }

/-- Single-pass, no-padding pipeline configuration. -/
def tinyCfg : Config :=
  { double_pass := false, do_padding := false, step_reflector := false
    block := 1, base_noise := 0, marker_len := 0 }

/-- The default pipeline configuration (all switches at their `Config`
defaults: double pass, padding and moving-reflector flag on). -/
def defaultCfg : Config := {}

/-- The default configuration with the double pass switched off. -/
def singlePassCfg : Config := { double_pass := false }

/-- Fallback rotor for `Option.getD` (never actually reached). -/
def fallbackRotor : Rotor := ⟨[], [], [], [], 0, 0⟩

/-- Fallback reflector for `Option.getD` (never actually reached). -/
def fallbackReflector : Reflector := ⟨[], [], 0⟩

/-- A concrete 3-symbol rotor used to witness the permutation claim. -/
def rotorW : Rotor :=
  (Rotor.mkRotor ['B', 'C', 'A'] [] ['A', 'B', 'C']).getD fallbackRotor

/-- A concrete 4-symbol reflector used to witness the involution claim. -/
def reflectorW : Reflector :=
  (Reflector.mkReflector ['B', 'A', 'D', '#'] alpha4).getD fallbackReflector

/-- The left rotor of the classical machine. -/
def legacyRotor1 : Rotor := legacyM.rotors.getD 0 fallbackRotor

/-- The middle rotor of the classical machine. -/
def legacyRotor2 : Rotor := legacyM.rotors.getD 1 fallbackRotor

/-- The rightmost rotor of the classical machine. -/
def legacyRotor3 : Rotor := legacyM.rotors.getD 2 fallbackRotor

/-! ### Arithmetic and list helper lemmas -/

theorem mod_add_left (x y n : Nat) : (x % n + y) % n = (x + y) % n := by
  simp [Nat.add_mod]

/-- Applying a rotor-style offset `+ g + (n - p)` and then the opposite
offset `+ p + (n - g)` modulo `n` is the identity on `[0, n)`. -/
theorem mod_shift_cancel {n : Nat} {m : Nat} (hm : m < n) (g p : Nat)
    (hg : g < n) (hp : p < n) :
    ((m + g + (n - p)) % n + p + (n - g)) % n = m := by
  rw [Nat.add_assoc, mod_add_left]
  have he : m + g + (n - p) + (p + (n - g)) = m + 2 * n := by omega
  rw [he, Nat.add_mul_mod_self_right, Nat.mod_eq_of_lt hm]

/-- Applying a reflector-style offset `+ (n - p)` and then `+ p` modulo
`n` is the identity on `[0, n)`. -/
theorem mod_refl_cancel {n : Nat} {m : Nat} (hm : m < n) (p : Nat)
    (hp : p < n) : ((m + (n - p)) % n + p) % n = m := by
  rw [mod_add_left]
  have he : m + (n - p) + p = m + n := by omega
  rw [he, Nat.add_mod_right, Nat.mod_eq_of_lt hm]

/-! ### Rotor lemmas -/

theorem Rotor.size_pos {r : Rotor} {alpha : Chars} (hv : r.Valid alpha) :
    0 < r.size :=
  Nat.lt_of_le_of_lt (Nat.zero_le _) hv.2.2.2.2.2.2.2.1

theorem Rotor.forward_lt {r : Rotor} {alpha : Chars} (hv : r.Valid alpha)
    (s : Nat) : r.forward s < r.size := by
  have hn : 0 < r.size := Rotor.size_pos hv
  unfold Rotor.forward
  exact Nat.mod_lt _ hn

theorem Rotor.backward_lt {r : Rotor} {alpha : Chars} (hv : r.Valid alpha)
    (s : Nat) : r.backward s < r.size := by
  have hn : 0 < r.size := Rotor.size_pos hv
  unfold Rotor.backward
  exact Nat.mod_lt _ hn

theorem Rotor.backward_forward {r : Rotor} {alpha : Chars} (hv : r.Valid alpha)
    {s : Nat} (hs : s < r.size) : r.backward (r.forward s) = s := by
  obtain ⟨ha, hfl, hrl, hfb, hrb, hrf, hfr, hp, hg⟩ := hv
  have hn : 0 < r.size := Nat.lt_of_le_of_lt (Nat.zero_le _) hp
  simp only [Rotor.forward, Rotor.backward]
  have hsh : (s + r.position + (r.size - r.ring_setting)) % r.size < r.size :=
    Nat.mod_lt _ hn
  rw [mod_shift_cancel (hfb _ hsh) _ _ hg hp, hrf _ hsh]
  exact mod_shift_cancel hs r.position r.ring_setting hp hg

theorem Rotor.forward_backward {r : Rotor} {alpha : Chars} (hv : r.Valid alpha)
    {s : Nat} (hs : s < r.size) : r.forward (r.backward s) = s := by
  obtain ⟨ha, hfl, hrl, hfb, hrb, hrf, hfr, hp, hg⟩ := hv
  have hn : 0 < r.size := Nat.lt_of_le_of_lt (Nat.zero_le _) hp
  simp only [Rotor.forward, Rotor.backward]
  have hsh : (s + r.position + (r.size - r.ring_setting)) % r.size < r.size :=
    Nat.mod_lt _ hn
  rw [mod_shift_cancel (hrb _ hsh) _ _ hg hp, hfr _ hsh]
  exact mod_shift_cancel hs r.position r.ring_setting hp hg

/-! ### Reflector lemmas -/

theorem Reflector.alphaLen_pos {rf : Reflector} {alpha : Chars}
    (hv : rf.Valid alpha) : 0 < alpha.length :=
  Nat.lt_of_le_of_lt (Nat.zero_le _) hv.2.2.2.2.2

theorem Reflector.reflect_lt {rf : Reflector} {alpha : Chars}
    (hv : rf.Valid alpha) (s : Nat) : rf.reflect s < alpha.length := by
  have hn : 0 < alpha.length := Reflector.alphaLen_pos hv
  obtain ⟨ha, -, -, -, -, -⟩ := hv
  simp only [Reflector.reflect, ha]
  exact Nat.mod_lt _ hn

theorem Reflector.reflect_reflect {rf : Reflector} {alpha : Chars}
    (hv : rf.Valid alpha) {s : Nat} (hs : s < alpha.length) :
    rf.reflect (rf.reflect s) = s := by
  obtain ⟨ha, hl, hb, hinv, hne, hp⟩ := hv
  have hn : 0 < alpha.length := Nat.lt_of_le_of_lt (Nat.zero_le _) hp
  simp only [Reflector.reflect, ha]
  have hadj : (s + rf.position) % alpha.length < alpha.length := Nat.mod_lt _ hn
  rw [mod_refl_cancel (hb _ hadj) _ hp, hinv _ hadj, mod_add_left]
  have he : s + rf.position + (alpha.length - rf.position) = s + alpha.length := by
    omega
  rw [he, Nat.add_mod_right, Nat.mod_eq_of_lt hs]

theorem Reflector.reflect_ne {rf : Reflector} {alpha : Chars}
    (hv : rf.Valid alpha) {s : Nat} (hs : s < alpha.length) :
    rf.reflect s ≠ s := by
  obtain ⟨ha, hl, hb, hinv, hne, hp⟩ := hv
  have hn : 0 < alpha.length := Nat.lt_of_le_of_lt (Nat.zero_le _) hp
  intro h
  have hadj : (s + rf.position) % alpha.length < alpha.length := Nat.mod_lt _ hn
  have h2 : (rf.reflect s + rf.position) % alpha.length =
      rf.map.getD ((s + rf.position) % alpha.length) 0 := by
    simp only [Reflector.reflect, ha]
    exact mod_refl_cancel (hb _ hadj) _ hp
  rw [h] at h2
  exact hne _ hadj h2.symm

/-! ### Plugboard lemmas -/

/-- Evaluating the plugboard dict after one more committed pair. -/
theorem Plugboard.mappingOf_append (pairs : List (Char × Char)) (a b c : Char) :
    Plugboard.mappingOf (pairs ++ [(a, b)]) c =
      (if c = b then a else if c = a then b
       else Plugboard.mappingOf pairs c) := by
  unfold Plugboard.mappingOf
  rw [List.foldl_append]
  simp only [List.foldl_cons, List.foldl_nil]

/-- Joint characterisation of the plugboard dict: symbols outside the
pairs are fixed, every image is a pair symbol or fixed, and the mapping is
an involution. -/
theorem Plugboard.mappingOf_spec (pairs : List (Char × Char))
    (hnd : (pairs.flatMap fun p => [p.1, p.2]).Nodup) :
    (∀ c, (c ∉ pairs.flatMap fun p => [p.1, p.2]) →
        Plugboard.mappingOf pairs c = c) ∧
    (∀ c, Plugboard.mappingOf pairs c = c ∨
        (Plugboard.mappingOf pairs c ∈ pairs.flatMap fun p => [p.1, p.2])) ∧
    (∀ c, Plugboard.mappingOf pairs (Plugboard.mappingOf pairs c) = c) := by
  induction pairs using List.reverseRecOn with
  | nil =>
    refine ⟨fun c _ => rfl, fun c => Or.inl rfl, fun c => rfl⟩
  | append_singleton ps p ih =>
    obtain ⟨a, b⟩ := p
    rw [List.flatMap_append] at hnd
    have hsym : (ps.flatMap fun p => [p.1, p.2]).Nodup ∧
        a ∉ (ps.flatMap fun p => [p.1, p.2]) ∧
        b ∉ (ps.flatMap fun p => [p.1, p.2]) ∧ a ≠ b := by
      rw [List.nodup_append] at hnd
      obtain ⟨h1, h2, h3⟩ := hnd
      refine ⟨h1, fun ha => ?_, fun hb => ?_, ?_⟩
      · exact h3 ha (by simp)
      · exact h3 hb (by simp)
      · have := h2
        simp only [List.flatMap_singleton, List.nodup_cons] at this
        simpa using this.1
    obtain ⟨hndps, hna, hnb, hab⟩ := hsym
    obtain ⟨ih1, ih2, ih3⟩ := ih hndps
    refine ⟨?_, ?_, ?_⟩
    · intro c hc
      simp only [List.flatMap_append, List.mem_append] at hc
      push_neg at hc
      have hcb : c ≠ b := by
        intro h; exact hc.2 (by simp [h])
      have hca : c ≠ a := by
        intro h; exact hc.2 (by simp [h])
      rw [Plugboard.mappingOf_append, if_neg hcb, if_neg hca]
      exact ih1 c hc.1
    · intro c
      rw [Plugboard.mappingOf_append]
      by_cases hcb : c = b
      · simp only [if_pos hcb]
        exact Or.inr (by simp [List.flatMap_append])
      · rw [if_neg hcb]
        by_cases hca : c = a
        · simp only [if_pos hca]
          exact Or.inr (by simp [List.flatMap_append])
        · rw [if_neg hca]
          rcases ih2 c with h | h
          · exact Or.inl h
          · exact Or.inr (by simp [List.flatMap_append, h])
    · intro c
      rw [Plugboard.mappingOf_append ps a b c]
      by_cases hcb : c = b
      · rw [if_pos hcb, Plugboard.mappingOf_append ps a b a, if_neg hab,
          if_pos rfl]
        exact hcb.symm
      · rw [if_neg hcb]
        by_cases hca : c = a
        · rw [if_pos hca, Plugboard.mappingOf_append ps a b b, if_pos rfl]
          exact hca.symm
        · rw [if_neg hca,
            Plugboard.mappingOf_append ps a b (Plugboard.mappingOf ps c)]
          have hmb : Plugboard.mappingOf ps c ≠ b := by
            rcases ih2 c with h | h
            · rw [h]; exact hcb
            · intro hcon; rw [hcon] at h; exact hnb h
          have hma : Plugboard.mappingOf ps c ≠ a := by
            rcases ih2 c with h | h
            · rw [h]; exact hca
            · intro hcon; rw [hcon] at h; exact hna h
          rw [if_neg hmb, if_neg hma]
          exact ih3 c

/-- Under `pairsOk`, the dict maps the alphabet into the alphabet. -/
theorem Plugboard.mappingOf_mem {pairs : List (Char × Char)} {alpha : Chars}
    (hok : pairsOk pairs alpha) {c : Char} (hc : c ∈ alpha) :
    Plugboard.mappingOf pairs c ∈ alpha := by
  obtain ⟨hnd, hin⟩ := hok
  rcases (Plugboard.mappingOf_spec pairs hnd).2.1 c with h | h
  · rw [h]; exact hc
  · rw [List.mem_flatMap] at h
    obtain ⟨p, hp, hmem⟩ := h
    obtain ⟨-, h1, h2⟩ := hin p hp
    simp only [List.mem_cons, List.not_mem_nil, or_false] at hmem
    rcases hmem with h | h
    · rw [h]; exact h1
    · rw [h]; exact h2

theorem Plugboard.passSignal_lt {pb : Plugboard} {alpha : Chars}
    (hpbA : pb.alphabet = alpha) (hok : pairsOk pb.pairs alpha)
    {sig : Nat} (hsig : sig < alpha.length) :
    pb.passSignal sig < alpha.length := by
  simp only [Plugboard.passSignal, hpbA]
  have hlet : alpha.getD sig ' ' ∈ alpha := by
    rw [List.getD_eq_getElem _ _ hsig]
    exact List.getElem_mem _
  exact List.indexOf_lt_length.2 (Plugboard.mappingOf_mem hok hlet)

theorem Plugboard.passSignal_invol {pb : Plugboard} {alpha : Chars}
    (hpbA : pb.alphabet = alpha) (hok : pairsOk pb.pairs alpha)
    (hnd : alpha.Nodup) {sig : Nat} (hsig : sig < alpha.length) :
    pb.passSignal (pb.passSignal sig) = sig := by
  simp only [Plugboard.passSignal, hpbA]
  have hlet : alpha.getD sig ' ' ∈ alpha := by
    rw [List.getD_eq_getElem _ _ hsig]
    exact List.getElem_mem _
  have hmap : Plugboard.mappingOf pb.pairs (alpha.getD sig ' ') ∈ alpha :=
    Plugboard.mappingOf_mem hok hlet
  have hidx : List.indexOf (Plugboard.mappingOf pb.pairs (alpha.getD sig ' '))
      alpha < alpha.length := List.indexOf_lt_length.2 hmap
  rw [List.getD_eq_getElem _ _ hidx, List.getElem_indexOf hidx,
    (Plugboard.mappingOf_spec pb.pairs hok.1).2.2,
    List.getD_eq_getElem _ _ hsig]
  exact List.get_indexOf hnd ⟨sig, hsig⟩

/-! ### Rotor chain lemmas -/

theorem fwdChain_nil (s : Nat) : fwdChain [] s = s := rfl

theorem fwdChain_cons (x : Rotor) (xs : List Rotor) (s : Nat) :
    fwdChain (x :: xs) s = x.forward (fwdChain xs s) := by
  unfold fwdChain
  rw [List.reverse_cons, List.foldl_append]
  rfl

theorem bwdChain_nil (s : Nat) : bwdChain [] s = s := rfl

theorem bwdChain_cons (x : Rotor) (xs : List Rotor) (s : Nat) :
    bwdChain (x :: xs) s = bwdChain xs (x.backward s) := rfl

/-- The rotor-stack size seen by every valid rotor is the alphabet size. -/
theorem Rotor.valid_size {r : Rotor} {alpha : Chars} (hv : r.Valid alpha) :
    r.size = alpha.length := by
  unfold Rotor.size
  rw [hv.1]

theorem bwdChain_fwdChain {alpha : Chars} (rotors : List Rotor)
    (hv : ∀ r ∈ rotors, r.Valid alpha) {s : Nat} (hs : s < alpha.length) :
    fwdChain rotors s < alpha.length ∧ bwdChain rotors (fwdChain rotors s) = s := by
  induction rotors with
  | nil => exact ⟨hs, rfl⟩
  | cons x xs ih =>
    have hx : x.Valid alpha := hv x (by simp)
    have hxs : ∀ r ∈ xs, r.Valid alpha := fun r hr => hv r (by simp [hr])
    obtain ⟨ihlt, ihinv⟩ := ih hxs
    have hsize : x.size = alpha.length := Rotor.valid_size hx
    constructor
    · rw [fwdChain_cons, ← hsize]
      exact Rotor.forward_lt hx _
    · rw [fwdChain_cons, bwdChain_cons,
        Rotor.backward_forward hx (by rw [hsize]; exact ihlt), ihinv]

theorem fwdChain_bwdChain {alpha : Chars} (rotors : List Rotor)
    (hv : ∀ r ∈ rotors, r.Valid alpha) {s : Nat} (hs : s < alpha.length) :
    bwdChain rotors s < alpha.length ∧ fwdChain rotors (bwdChain rotors s) = s := by
  induction rotors generalizing s with
  | nil => exact ⟨hs, rfl⟩
  | cons x xs ih =>
    have hx : x.Valid alpha := hv x (by simp)
    have hxs : ∀ r ∈ xs, r.Valid alpha := fun r hr => hv r (by simp [hr])
    have hsize : x.size = alpha.length := Rotor.valid_size hx
    have hblt : x.backward s < alpha.length := by
      rw [← hsize]; exact Rotor.backward_lt hx _
    obtain ⟨ihlt, ihinv⟩ := ih hxs hblt
    constructor
    · rw [bwdChain_cons]
      exact ihlt
    · rw [bwdChain_cons, fwdChain_cons, ihinv,
        Rotor.forward_backward hx (by rw [hsize]; exact hs)]

/-! ### Keyboard lemmas -/

theorem Keyboard.forward_mem {kb : Keyboard} {c : Char} (hc : c ∈ kb.alphabet) :
    kb.forward c = .ok (List.indexOf c kb.alphabet) := by
  unfold Keyboard.forward
  rw [if_pos (List.elem_iff.mpr hc)]

theorem Keyboard.backward_of_lt {kb : Keyboard} {sig : Nat}
    (h : sig < kb.alphabet.length) :
    kb.backward sig = .ok (kb.alphabet.getD sig ' ') := by
  unfold Keyboard.backward
  rw [if_pos h]

/-! ### Signal-path lemmas -/

theorem Inop.pathCore_spec (N : Inop) (hv : N.Valid) {sig : Nat}
    (hsig : sig < N.kb.alphabet.length) :
    N.pathCore sig < N.kb.alphabet.length ∧
    N.pathCore (N.pathCore sig) = sig ∧ N.pathCore sig ≠ sig := by
  obtain ⟨hn, hnd, hpbA, hpairs, hrot, hrefl⟩ := hv
  have hp1 : N.pb.passSignal sig < N.kb.alphabet.length :=
    Plugboard.passSignal_lt hpbA hpairs hsig
  obtain ⟨hf1, hbwd1⟩ := bwdChain_fwdChain N.rotors hrot hp1
  have hr1 : N.reflector.reflect (fwdChain N.rotors (N.pb.passSignal sig)) <
      N.kb.alphabet.length := Reflector.reflect_lt hrefl _
  obtain ⟨hb1, hfwd2⟩ := fwdChain_bwdChain N.rotors hrot hr1
  have hout : N.pb.passSignal (bwdChain N.rotors
      (N.reflector.reflect (fwdChain N.rotors (N.pb.passSignal sig)))) <
      N.kb.alphabet.length := Plugboard.passSignal_lt hpbA hpairs hb1
  refine ⟨hout, ?_, ?_⟩
  · show N.pb.passSignal (bwdChain N.rotors (N.reflector.reflect
      (fwdChain N.rotors (N.pb.passSignal (N.pb.passSignal (bwdChain N.rotors
        (N.reflector.reflect (fwdChain N.rotors (N.pb.passSignal sig))))))))) = sig
    rw [Plugboard.passSignal_invol hpbA hpairs hnd hb1, hfwd2,
      Reflector.reflect_reflect hrefl hf1, hbwd1,
      Plugboard.passSignal_invol hpbA hpairs hnd hsig]
  · intro hfix
    have hfix' : N.pb.passSignal (bwdChain N.rotors (N.reflector.reflect
        (fwdChain N.rotors (N.pb.passSignal sig)))) = sig := hfix
    have h1 := congrArg N.pb.passSignal hfix'
    rw [Plugboard.passSignal_invol hpbA hpairs hnd hb1] at h1
    have h2 := congrArg (fwdChain N.rotors) h1
    rw [hfwd2] at h2
    exact Reflector.reflect_ne hrefl hf1 h2

theorem Inop.encChar_spec (N : Inop) (hv : N.Valid) {c : Char}
    (hc : c ∈ N.kb.alphabet) :
    ∃ c', encChar N c = .ok c' ∧ c' ∈ N.kb.alphabet ∧ c' ≠ c ∧
      encChar N c' = .ok c := by
  have hnd : N.kb.alphabet.Nodup := hv.2.1
  have hsig : List.indexOf c N.kb.alphabet < N.kb.alphabet.length :=
    List.indexOf_lt_length.2 hc
  obtain ⟨hplt, hpinv, hpne⟩ := Inop.pathCore_spec N hv hsig
  refine ⟨N.kb.alphabet.getD (N.pathCore (List.indexOf c N.kb.alphabet)) ' ',
    ?_, ?_, ?_, ?_⟩
  · unfold encChar
    rw [Keyboard.forward_mem hc]
    show N.kb.backward (N.pathCore (List.indexOf c N.kb.alphabet)) = _
    rw [Keyboard.backward_of_lt hplt]
  · rw [List.getD_eq_getElem _ _ hplt]
    exact List.getElem_mem _
  · intro h
    apply hpne
    have hip : List.indexOf c N.kb.alphabet =
        N.pathCore (List.indexOf c N.kb.alphabet) := by
      conv_lhs => rw [← h]
      rw [List.getD_eq_getElem _ _ hplt]
      exact List.indexOf_getElem hnd _ hplt
    exact hip.symm
  · have hmem : N.kb.alphabet.getD
        (N.pathCore (List.indexOf c N.kb.alphabet)) ' ' ∈ N.kb.alphabet := by
      rw [List.getD_eq_getElem _ _ hplt]
      exact List.getElem_mem _
    unfold encChar
    rw [Keyboard.forward_mem hmem]
    have hidx : List.indexOf (N.kb.alphabet.getD
        (N.pathCore (List.indexOf c N.kb.alphabet)) ' ') N.kb.alphabet =
        N.pathCore (List.indexOf c N.kb.alphabet) := by
      rw [List.getD_eq_getElem _ _ hplt]
      exact List.indexOf_getElem hnd _ hplt
    show N.kb.backward (N.pathCore (List.indexOf _ N.kb.alphabet)) = _
    rw [hidx, hpinv, Keyboard.backward_of_lt hsig,
      List.getD_eq_getElem _ _ hsig, List.getElem_indexOf hsig]

/-! ### Stepping preserves validity -/

theorem Rotor.step_valid {r : Rotor} {alpha : Chars} (hv : r.Valid alpha) :
    (r.step).2.Valid alpha := by
  obtain ⟨ha, hfl, hrl, hfb, hrb, hrf, hfr, hp, hg⟩ := hv
  have hn : 0 < r.size := Nat.lt_of_le_of_lt (Nat.zero_le _) hp
  exact ⟨ha, hfl, hrl, hfb, hrb, hrf, hfr, Nat.mod_lt _ hn, hg⟩

theorem cascade_valid {alpha : Chars} :
    ∀ rs : List Rotor, (∀ r ∈ rs, r.Valid alpha) →
      ∀ r ∈ cascade rs, r.Valid alpha := by
  intro rs
  induction rs with
  | nil => intro _ r hr; simp [cascade] at hr
  | cons x xs ih =>
    intro h r hr
    have hx : x.Valid alpha := h x (by simp)
    have hxs : ∀ r ∈ xs, r.Valid alpha := fun r hr => h r (by simp [hr])
    simp only [cascade] at hr
    split at hr
    · rcases List.mem_cons.1 hr with h' | h'
      · rw [h']; exact Rotor.step_valid hx
      · exact ih hxs r h'
    · rcases List.mem_cons.1 hr with h' | h'
      · rw [h']; exact Rotor.step_valid hx
      · exact hxs r h'

theorem stepRotorList_valid {alpha : Chars} (rs : List Rotor)
    (h : ∀ r ∈ rs, r.Valid alpha) :
    ∀ r ∈ Inop.stepRotorList rs, r.Valid alpha := by
  have hgen : ∀ rs' : List Rotor, (∀ r ∈ rs', r.Valid alpha) →
      ∀ r ∈ (cascade rs'.reverse).reverse, r.Valid alpha := by
    intro rs' h' r hr
    rw [List.mem_reverse] at hr
    exact cascade_valid _ (fun q hq => h' q (List.mem_reverse.1 hq)) r hr
  rcases rs with _ | ⟨a, _ | ⟨b, _ | ⟨c, _ | ⟨d, tl⟩⟩⟩⟩
  · exact hgen [] h
  · exact hgen [a] h
  · exact hgen [a, b] h
  · have ha : a.Valid alpha := h a (by simp)
    have hb : b.Valid alpha := h b (by simp)
    have hc : c.Valid alpha := h c (by simp)
    intro r hr
    simp only [Inop.stepRotorList] at hr
    split at hr <;> [skip; split at hr] <;>
      · simp only [List.mem_cons, List.not_mem_nil, or_false] at hr
        rcases hr with h' | h' | h' <;> rw [h'] <;>
          first
          | exact Rotor.step_valid ha
          | exact Rotor.step_valid hb
          | exact Rotor.step_valid hc
          | exact ha
          | exact hb
          | exact hc
  · exact hgen (a :: b :: c :: d :: tl) h

theorem Inop.stepped_valid {M : Inop} (hv : M.Valid) : M.stepped.Valid :=
  ⟨hv.1, hv.2.1, hv.2.2.1, hv.2.2.2.1,
    stepRotorList_valid _ hv.2.2.2.2.1, hv.2.2.2.2.2⟩

/-! ### Block enciphering is an involution -/

theorem runBlock_invol (M : Inop) (hv : M.Valid) (t : Chars)
    (ht : ∀ c ∈ t, c ∈ M.kb.alphabet) :
    ∃ u Mf, runBlock M t = (.ok u, Mf) ∧ runBlock M u = (.ok t, Mf) ∧
      u.length = t.length ∧ ∀ c ∈ u, c ∈ M.kb.alphabet := by
  induction t generalizing M with
  | nil => exact ⟨[], M, rfl, rfl, rfl, by simp⟩
  | cons c cs ih =>
    have hstep : M.stepped.Valid := Inop.stepped_valid hv
    have hc : c ∈ M.kb.alphabet := ht c (by simp)
    have hcs : ∀ d ∈ cs, d ∈ M.kb.alphabet := fun d hd => ht d (by simp [hd])
    obtain ⟨c', hok, hc'mem, hc'ne, hok2⟩ := Inop.encChar_spec M.stepped hstep hc
    obtain ⟨u, Mf, h1, h2, hlen, hmem⟩ := ih M.stepped hstep hcs
    refine ⟨c' :: u, Mf, ?_, ?_, by simp [hlen], ?_⟩
    · simp only [runBlock, Inop.encypher, hok, h1, Except.map]
    · simp only [runBlock, Inop.encypher, hok2, h2, Except.map]
    · intro d hd
      rcases List.mem_cons.1 hd with h' | h'
      · rw [h']; exact hc'mem
      · exact hmem d h'

/-! ### Context-level lemmas: rewind and encipher_block -/

theorem setKey_valid {alpha : Chars} :
    ∀ (rs : List Rotor) (key : Chars), (∀ r ∈ rs, r.Valid alpha) →
      (∀ ch ∈ key, ch ∈ alpha) →
      ∃ rs', Inop.setKey rs key = some rs' ∧ ∀ r ∈ rs', r.Valid alpha := by
  intro rs
  induction rs with
  | nil =>
    intro key h hk
    refine ⟨[], ?_, by simp⟩
    cases key <;> rfl
  | cons r rs ih =>
    intro key h hk
    cases key with
    | nil => exact ⟨r :: rs, rfl, h⟩
    | cons ch chs =>
      have hr : r.Valid alpha := h r (by simp)
      have hch : ch ∈ r.alphabet := by rw [hr.1]; exact hk ch (by simp)
      obtain ⟨rs', hrs', hvs'⟩ :=
        ih chs (fun q hq => h q (by simp [hq])) (fun d hd => hk d (by simp [hd]))
      refine ⟨{ r with position := List.indexOf ch r.alphabet } :: rs', ?_, ?_⟩
      · simp only [Inop.setKey]
        rw [if_pos (List.elem_iff.mpr hch), hrs']
        rfl
      · intro q hq
        rcases List.mem_cons.1 hq with h' | h'
        · rw [h']
          obtain ⟨ha, hfl, hrl, hfb, hrb, hrf, hfr, hp, hg⟩ := hr
          exact ⟨ha, hfl, hrl, hfb, hrb, hrf, hfr,
            List.indexOf_lt_length.2 hch, hg⟩
        · exact hvs' q h'

theorem rewind_spec (ctx : MachineContext) (hv : ctx.Valid) :
    ∃ M0, ctx.rewind = some M0 ∧ M0.Valid ∧ M0.kb = ctx.machine.kb := by
  obtain ⟨hM, hal, hlen, hkey⟩ := hv
  obtain ⟨hn, hnd, hpbA, hpairs, hrot, hrefl⟩ := hM
  obtain ⟨rs', hset, hrs'⟩ := setKey_valid ctx.machine.rotors
    ctx.masterKey.dropLast hrot
    (fun ch hch => hkey ch (List.mem_of_mem_dropLast hch))
  have hne : ctx.masterKey ≠ [] := by
    intro h
    rw [h] at hlen
    simp at hlen
  have hlmem : ctx.masterKey.getLast hne ∈ ctx.machine.kb.alphabet :=
    hkey _ (List.getLast_mem hne)
  have hreflmem : ctx.masterKey.getLast hne ∈ ctx.machine.reflector.alphabet := by
    rw [hrefl.1]; exact hlmem
  let refl' : Reflector :=
    { ctx.machine.reflector with
      position := List.indexOf (ctx.masterKey.getLast hne)
        ctx.machine.reflector.alphabet }
  refine ⟨{ ctx.machine with rotors := rs', reflector := refl' }, ?_, ?_, rfl⟩
  · simp only [MachineContext.rewind, hset, Option.bind_eq_bind,
      Option.some_bind, List.getLast?_eq_getLast _ hne,
      Reflector.rotate_to_letter]
    rw [if_pos (List.elem_iff.mpr hreflmem)]
    simp only [Option.bind_eq_bind, Option.some_bind]
  · obtain ⟨hra, hrl2, hrb2, hrinv, hrne, hrp⟩ := hrefl
    refine ⟨hn, hnd, hpbA, hpairs, hrs', hra, hrl2, hrb2, hrinv, hrne, ?_⟩
    have h1 := List.indexOf_lt_length.2 hreflmem
    have h2 : ctx.machine.reflector.alphabet.length =
        ctx.machine.kb.alphabet.length := by rw [hra]
    exact Nat.lt_of_lt_of_le h1 (Nat.le_of_eq h2)

theorem encipher_block_spec (ctx : MachineContext) (hv : ctx.Valid) (t : Chars)
    (ht : ∀ c ∈ t, c ∈ ctx.machine.kb.alphabet) :
    ∃ u, ctx.encipher_block t = .ok u ∧ ctx.encipher_block u = .ok t ∧
      u.length = t.length ∧ ∀ c ∈ u, c ∈ ctx.machine.kb.alphabet := by
  obtain ⟨M0, hM0, hM0v, hkb⟩ := rewind_spec ctx hv
  have ht' : ∀ c ∈ t, c ∈ M0.kb.alphabet := by rw [hkb]; exact ht
  obtain ⟨u, Mf, h1, h2, hlen, hmem⟩ := runBlock_invol M0 hM0v t ht'
  refine ⟨u, ?_, ?_, hlen, fun c hc => ?_⟩
  · simp only [MachineContext.encipher_block, hM0, h1]
  · simp only [MachineContext.encipher_block, hM0, h2]
  · have := hmem c hc
    rw [hkb] at this
    exact this

/-! ### Preprocessing lemmas -/

theorem preprocess_append (a b alpha : Chars) :
    preprocess_message (a ++ b) alpha =
      preprocess_message a alpha ++ preprocess_message b alpha := by
  unfold preprocess_message
  rw [List.map_append, List.flatMap_append, List.filter_append]

theorem preprocess_mem (msg alpha : Chars) :
    ∀ c ∈ preprocess_message msg alpha, c ∈ alpha := by
  intro c hc
  unfold preprocess_message at hc
  rw [List.mem_filter] at hc
  exact List.elem_iff.1 hc.2

/-! ### Marker extraction lemmas -/

theorem occurrencesOf_pairwise (full pat : Chars) :
    (occurrencesOf full pat).Pairwise (· < ·) :=
  List.Pairwise.filter _ (List.pairwise_lt_range _)

/-- If the planted occurrences are the first and last matches, extraction
returns exactly the middle segment. -/
theorem extract_planted (front marker mid back : Chars) (hm : marker ≠ [])
    (hf : pyFind (front ++ marker ++ mid ++ marker ++ back) marker =
      some front.length)
    (hr : pyRFind (front ++ marker ++ mid ++ marker ++ back) marker =
      some (front.length + marker.length + mid.length)) :
    extract_message (front ++ marker ++ mid ++ marker ++ back) marker =
      .ok mid := by
  unfold extract_message
  rw [hf, hr]
  dsimp only
  have hmlen : 0 < marker.length := List.length_pos.2 hm
  have hne : front.length ≠ front.length + marker.length + mid.length := by
    omega
  rw [if_neg hne]
  have hsub : front.length + marker.length + mid.length -
      (front.length + marker.length) = mid.length := by omega
  rw [hsub]
  have hass : front ++ marker ++ mid ++ marker ++ back =
      (front ++ marker) ++ (mid ++ (marker ++ back)) := by
    simp [List.append_assoc]
  rw [hass,
    show front.length + marker.length = (front ++ marker).length from
      (List.length_append _ _).symm,
    List.drop_left, List.take_left]

/-! ### Constructor bridge lemmas -/

theorem getD_map_of_lt {α β : Type} (f : α → β) (l : List α) {i : Nat}
    (h : i < l.length) (d : β) (d' : α) :
    (l.map f).getD i d = f (l.getD i d') := by
  rw [List.getD_eq_getElem _ _ (by simpa using h), List.getD_eq_getElem _ _ h,
    List.getElem_map]

/-- A rotor built by `Rotor.__init__`, at any dial position and ring
offset in range, satisfies the rotor invariant. -/
theorem mkRotor_valid {wiring notches alpha : Chars} {r : Rotor}
    (hmk : Rotor.mkRotor wiring notches alpha = some r) (hnd : alpha.Nodup)
    {pos ring : Nat} (hpos : pos < alpha.length) (hring : ring < alpha.length) :
    ({ r with position := pos, ring_setting := ring }).Valid alpha := by
  unfold Rotor.mkRotor at hmk
  split at hmk
  case isFalse => exact absurd hmk (by simp)
  case isTrue hperm' =>
    have hperm : wiring.Perm alpha := List.isPerm_iff.1 hperm'
    have hlen : wiring.length = alpha.length := hperm.length_eq
    have hndw : wiring.Nodup := (hperm.nodup_iff).2 hnd
    have heq := Option.some.inj hmk
    subst heq
    have hfwdD : ∀ i, i < wiring.length →
        (wiring.map (fun c => alpha.indexOf c)).getD i 0 =
          alpha.indexOf (wiring.getD i ' ') :=
      fun i hi => getD_map_of_lt _ _ hi _ ' '
    have hrevD : ∀ i, i < alpha.length →
        (alpha.map (fun c => wiring.indexOf c)).getD i 0 =
          wiring.indexOf (alpha.getD i ' ') :=
      fun i hi => getD_map_of_lt _ _ hi _ ' '
    have hwmem : ∀ i, i < wiring.length → wiring.getD i ' ' ∈ alpha := by
      intro i hi
      rw [← hperm.mem_iff, List.getD_eq_getElem _ _ hi]
      exact List.getElem_mem _
    have hamem : ∀ i, i < alpha.length → alpha.getD i ' ' ∈ wiring := by
      intro i hi
      rw [hperm.mem_iff, List.getD_eq_getElem _ _ hi]
      exact List.getElem_mem _
    refine ⟨rfl, ?_, ?_, ?_, ?_, ?_, ?_, hpos, hring⟩
    · show (wiring.map (fun c => alpha.indexOf c)).length = alpha.length
      simp [hlen]
    · show (alpha.map (fun c => wiring.indexOf c)).length = alpha.length
      simp
    · intro i hi
      have hi' : i < alpha.length := hi
      show (wiring.map (fun c => alpha.indexOf c)).getD i 0 < alpha.length
      rw [hfwdD i (by omega)]
      exact List.indexOf_lt_length.2 (hwmem i (by omega))
    · intro i hi
      have hi' : i < alpha.length := hi
      show (alpha.map (fun c => wiring.indexOf c)).getD i 0 < alpha.length
      rw [hrevD i hi', ← hlen]
      exact List.indexOf_lt_length.2 (hamem i hi')
    · intro i hi
      have hi' : i < alpha.length := hi
      have hiw : i < wiring.length := by omega
      have hj : alpha.indexOf (wiring.getD i ' ') < alpha.length :=
        List.indexOf_lt_length.2 (hwmem i hiw)
      show (alpha.map (fun c => wiring.indexOf c)).getD
          ((wiring.map (fun c => alpha.indexOf c)).getD i 0) 0 = i
      have e3 : alpha.getD (alpha.indexOf (wiring.getD i ' ')) ' ' =
          wiring.getD i ' ' := by
        rw [List.getD_eq_getElem _ _ hj]
        exact List.getElem_indexOf hj
      have e4 : wiring.indexOf (wiring.getD i ' ') = i := by
        rw [List.getD_eq_getElem _ _ hiw]
        exact List.indexOf_getElem hndw _ _
      rw [hfwdD i hiw, hrevD _ hj, e3, e4]
    · intro i hi
      have hi' : i < alpha.length := hi
      have hj : wiring.indexOf (alpha.getD i ' ') < wiring.length :=
        List.indexOf_lt_length.2 (hamem i hi')
      show (wiring.map (fun c => alpha.indexOf c)).getD
          ((alpha.map (fun c => wiring.indexOf c)).getD i 0) 0 = i
      have e3 : wiring.getD (wiring.indexOf (alpha.getD i ' ')) ' ' =
          alpha.getD i ' ' := by
        rw [List.getD_eq_getElem _ _ hj]
        exact List.getElem_indexOf hj
      have e4 : alpha.indexOf (alpha.getD i ' ') = i := by
        rw [List.getD_eq_getElem _ _ hi']
        exact List.indexOf_getElem hnd _ _
      rw [hrevD i hi', hfwdD _ hj, e3, e4]

/-- A reflector built by `Reflector.__init__`, at any rotation in range,
satisfies the fixed-point-free involution invariant. -/
theorem mkReflector_valid {wiring alpha : Chars} {rf : Reflector}
    (hmk : Reflector.mkReflector wiring alpha = some rf) (hnd : alpha.Nodup)
    {pos : Nat} (hpos : pos < alpha.length) :
    ({ rf with position := pos }).Valid alpha := by
  unfold Reflector.mkReflector at hmk
  split at hmk
  case isFalse => exact absurd hmk (by simp)
  case isTrue hcond =>
    rw [Bool.and_eq_true] at hcond
    obtain ⟨hlen', hchk⟩ := hcond
    have hlen : wiring.length = alpha.length := by
      simpa using hlen'
    have hchk' : ∀ i, i < wiring.length → wiring.getD i ' ' ∈ alpha ∧
        wiring.getD (alpha.indexOf (wiring.getD i ' ')) ' ' = alpha.getD i ' ' ∧
        i ≠ alpha.indexOf (wiring.getD i ' ') := by
      intro i hi
      have h := List.all_eq_true.1 hchk i (List.mem_range.2 hi)
      simp only [Bool.and_eq_true, beq_iff_eq, Bool.not_eq_true',
        beq_eq_false_iff_ne] at h
      exact ⟨List.elem_iff.1 (by exact h.1.1), h.1.2, h.2⟩
    have heq := Option.some.inj hmk
    subst heq
    have hmapD : ∀ i, i < wiring.length →
        (wiring.map (fun c => alpha.indexOf c)).getD i 0 =
          alpha.indexOf (wiring.getD i ' ') :=
      fun i hi => getD_map_of_lt _ _ hi _ ' '
    refine ⟨rfl, ?_, ?_, ?_, ?_, hpos⟩
    · show (wiring.map (fun c => alpha.indexOf c)).length = alpha.length
      simp [hlen]
    · intro i hi
      show (wiring.map (fun c => alpha.indexOf c)).getD i 0 < alpha.length
      rw [hmapD i (by omega)]
      exact List.indexOf_lt_length.2 (hchk' i (by omega)).1
    · intro i hi
      have hiw : i < wiring.length := by omega
      obtain ⟨hmem, hsymm, hne⟩ := hchk' i hiw
      have hj : alpha.indexOf (wiring.getD i ' ') < alpha.length :=
        List.indexOf_lt_length.2 hmem
      show (wiring.map (fun c => alpha.indexOf c)).getD
          ((wiring.map (fun c => alpha.indexOf c)).getD i 0) 0 = i
      rw [hmapD i hiw, hmapD _ (by omega), hsymm,
        List.getD_eq_getElem _ _ hi]
      exact List.indexOf_getElem hnd _ _
    · intro i hi
      have hiw : i < wiring.length := by omega
      show (wiring.map (fun c => alpha.indexOf c)).getD i 0 ≠ i
      rw [hmapD i hiw]
      exact fun h => (hchk' i hiw).2.2 h.symm

theorem head_lt_getLast_of_two {l : List Nat} (hpw : l.Pairwise (· < ·))
    {x : Nat} (hx : l.head? = some x) {y : Nat} (hy : l.getLast? = some y)
    (hlen : 2 ≤ l.length) : x < y := by
  match l, hpw, hx, hy, hlen with
  | a :: b :: bs, hpw, hx, hy, _ =>
    have hx' : a = x := Option.some.inj hx
    rw [List.getLast?_cons_cons] at hy
    have hymem : y ∈ b :: bs := List.mem_of_mem_getLast? hy
    have h1 := (List.pairwise_cons.1 hpw).1 y hymem
    rw [hx'] at h1
    exact h1

/-! ### Except plumbing and pipeline pass lemmas -/

theorem bind_ok_eq {ε α β : Type} (a : α) (f : α → Except ε β) :
    (Except.ok a : Except ε α) >>= f = f a := rfl

theorem bind_error_eq {ε α β : Type} (e : ε) (f : α → Except ε β) :
    (Except.error e : Except ε α) >>= f = .error e := rfl

theorem except_map_bind {ε α β γ : Type} (g : β → γ) (x : Except ε α)
    (f : α → Except ε β) :
    (x >>= f).map g = x >>= fun a => (f a).map g := by
  cases x <;> rfl

theorem except_map_eq_bind {ε α β : Type} (g : α → β) (x : Except ε α) :
    x.map g = x >>= fun a => (Except.ok (g a) : Except ε β) := by
  cases x <;> rfl

theorem except_bind_assoc {ε α β γ : Type} (x : Except ε α)
    (f : α → Except ε β) (g : β → Except ε γ) :
    (x >>= f) >>= g = x >>= fun a => f a >>= g := by
  cases x <;> rfl

theorem pipelineCtx_alphabet (ctx : MachineContext) (cfg : Config) :
    (pipelineCtx ctx cfg).alphabet = ctx.alphabet := rfl

/-- Two rewound passes cancel: the pass structure shared by `encrypt` and
`decrypt` (single pass, or encipher–reverse–encipher) is an involution on
alphabet-only texts. -/
theorem passes_invol (ctx : MachineContext) (cfg : Config) (hv : ctx.Valid)
    (clean : Chars) (hmem : ∀ c ∈ clean, c ∈ ctx.machine.kb.alphabet) :
    ∃ cipher, decryptPasses ctx cfg clean = .ok cipher ∧
      decryptPasses ctx cfg cipher = .ok clean := by
  cases hdp : cfg.double_pass with
  | false =>
    obtain ⟨u, e1, e2, -, -⟩ := encipher_block_spec ctx hv clean hmem
    refine ⟨u, ?_, ?_⟩ <;> simp only [decryptPasses, hdp, Bool.false_eq_true,
      if_false, e1, e2]
  | true =>
    obtain ⟨s1, e1, e1inv, -, mem1⟩ := encipher_block_spec ctx hv clean hmem
    obtain ⟨c2, e2, e2inv, -, -⟩ := encipher_block_spec ctx hv s1.reverse
      (fun c h => mem1 c (List.mem_reverse.1 h))
    refine ⟨c2, ?_, ?_⟩
    · simp only [decryptPasses, hdp, if_true, e1, bind_ok_eq, e2]
    · simp only [decryptPasses, hdp, if_true, e2inv, bind_ok_eq,
        List.reverse_reverse, e1inv]

/-- `encrypt` is the shared pass structure applied to the preprocessed
(possibly padded) message, paired with the marker. -/
theorem encrypt_eq_passes (ctx : MachineContext) (cfg : Config)
    (msg marker front back : Chars) :
    encrypt ctx cfg msg marker front back =
      (decryptPasses (pipelineCtx ctx cfg) cfg
        (preprocess_message
          (if cfg.do_padding then
            pad_message front (marker ++ msg ++ marker) back
          else msg) ctx.alphabet)).map
        (fun c => (c, if cfg.do_padding then some marker else none)) := by
  cases hpad : cfg.do_padding <;> cases hdp : cfg.double_pass <;>
    simp only [encrypt, decryptPasses, hpad, hdp, Bool.false_eq_true,
      if_false, if_true, except_map_bind, except_map_eq_bind,
      except_bind_assoc, pipelineCtx_alphabet]

/-! ### Claim theorems -/

/-- C2: with exactly 3 rotors, the per-keypress transition steps the left
rotor iff the middle rotor sits on one of its own notch symbols, steps the
middle rotor iff the middle or the rightmost rotor sits on a notch symbol,
and always steps the rightmost rotor — all conditions read on the
pre-keypress rotor state. -/
theorem claim_C2_stepping (M : Inop) (left middle right : Rotor)
    (hM : M.rotors = [left, middle, right])
    (ham : middle.alphabet = left.alphabet)
    (har : right.alphabet = left.alphabet) :
    (M.stepped).rotors.map Rotor.position =
      [if middle.alphabet.getD middle.position ' ' ∈ middle.notches
        then (left.position + 1) % left.size else left.position,
       if (middle.alphabet.getD middle.position ' ' ∈ middle.notches) ∨
          (right.alphabet.getD right.position ' ' ∈ right.notches)
        then (middle.position + 1) % middle.size else middle.position,
       (right.position + 1) % right.size] := by
  simp only [Inop.stepped, hM, Inop.stepRotorList]
  rw [ham, har]
  split_ifs <;> simp_all [Rotor.step]

theorem claim_C2_stepping_witness :
    (legacyM.stepped).rotors.map Rotor.position =
      [if legacyRotor2.alphabet.getD legacyRotor2.position ' ' ∈
          legacyRotor2.notches
        then (legacyRotor1.position + 1) % legacyRotor1.size
        else legacyRotor1.position,
       if (legacyRotor2.alphabet.getD legacyRotor2.position ' ' ∈
          legacyRotor2.notches) ∨
          (legacyRotor3.alphabet.getD legacyRotor3.position ' ' ∈
          legacyRotor3.notches)
        then (legacyRotor2.position + 1) % legacyRotor2.size
        else legacyRotor2.position,
       (legacyRotor3.position + 1) % legacyRotor3.size] :=
  claim_C2_stepping legacyM legacyRotor1 legacyRotor2 legacyRotor3
    (by decide) (by decide) (by decide)

/-- C3: the classical configuration (rotors I, II, III, reflector B, ring
settings [1,1,1], all starting positions 'A') enciphers "AAAAA" to
"BDZGO". -/
theorem claim_C3_test_vector :
    legacyInop.map (fun M => (runBlock M "AAAAA".toList).1) =
      some (.ok "BDZGO".toList) := by
  rfl

/-- C4: for every rotor with valid wiring (over a duplicate-free
alphabet), every position and ring offset in range and every signal in
range, `backward` inverts `forward`. -/
theorem claim_C4_rotor_inverse (wiring notches alpha : Chars) (r : Rotor)
    (hmk : Rotor.mkRotor wiring notches alpha = some r) (hnd : alpha.Nodup)
    (pos ring : Nat) (hpos : pos < alpha.length) (hring : ring < alpha.length)
    (s : Nat) (hs : s < alpha.length) :
    ({ r with position := pos, ring_setting := ring }).backward
      (({ r with position := pos, ring_setting := ring }).forward s) = s := by
  have hv := mkRotor_valid hmk hnd hpos hring
  have hsz : ({ r with position := pos, ring_setting := ring } :
      Rotor).size = alpha.length := by
    rw [Rotor.valid_size hv]
  exact Rotor.backward_forward hv (by rw [hsz]; exact hs)

theorem claim_C4_rotor_inverse_witness :
    ({ rotorW with position := 1, ring_setting := 2 }).backward
      (({ rotorW with position := 1, ring_setting := 2 }).forward 0) = 0 :=
  claim_C4_rotor_inverse ['B', 'C', 'A'] [] ['A', 'B', 'C'] rotorW
    (by decide) (by decide) 1 2 (by decide) (by decide) 0 (by decide)

/-- C5: every successfully constructed reflector, at every rotation in
range, reflects involutively and never maps a signal to itself. -/
theorem claim_C5_reflector_involution (wiring alpha : Chars) (rf : Reflector)
    (hmk : Reflector.mkReflector wiring alpha = some rf) (hnd : alpha.Nodup)
    (pos : Nat) (hpos : pos < alpha.length) (s : Nat) (hs : s < alpha.length) :
    ({ rf with position := pos }).reflect
        (({ rf with position := pos }).reflect s) = s ∧
      ({ rf with position := pos }).reflect s ≠ s :=
  ⟨Reflector.reflect_reflect (mkReflector_valid hmk hnd hpos) hs,
   Reflector.reflect_ne (mkReflector_valid hmk hnd hpos) hs⟩

theorem claim_C5_reflector_involution_witness :
    ({ reflectorW with position := 3 }).reflect
        (({ reflectorW with position := 3 }).reflect 2) = 2 ∧
      ({ reflectorW with position := 3 }).reflect 2 ≠ 2 :=
  claim_C5_reflector_involution ['B', 'A', 'D', '#'] alpha4 reflectorW
    (by decide) (by decide) 3 (by decide) 2 (by decide)

/-- C6 (amended): the `step_reflector` flag written onto the machine by
`CipherPipeline.__init__` is never read; `Inop.encypher` leaves the
reflector — in particular its position — unchanged even when the flag is
enabled.  Only `rewind` repositions the reflector. -/
theorem claim_C6_flag_unread (M : Inop) (c : Char)
    (hflag : M.stepReflectorFlag = true) :
    ((M.encypher c).2).reflector = M.reflector := rfl

theorem claim_C6_flag_unread_witness :
    ((legacyFlagged.encypher 'A').2).reflector = legacyFlagged.reflector :=
  claim_C6_flag_unread legacyFlagged 'A' rfl

/-- C6 counterexample: on the classical machine with the flag enabled, one
`encypher` call does not advance the reflector position by one — the
position stays fixed. -/
theorem claim_C6_counterexample :
    legacyFlagged.stepReflectorFlag = true ∧
    ((legacyFlagged.encypher 'A').2).reflector.position ≠
      (legacyFlagged.reflector.position + 1) %
        legacyFlagged.kb.alphabet.length := by
  decide

/-- C1 (amended): decrypting the output of `encrypt` (same marker, same
flags, engine rewound to the master key before every pass) yields
`preprocess(m)` with every `'#'` replaced by a space, provided the padding
noise and marker are preprocess-invariant and the planted markers are the
first and last marker occurrences in the decrypted plaintext.  The `'#'`
replacement and the marker-collision hypotheses are forced by the
counterexamples. -/
theorem claim_C1_pipeline_roundtrip (ctx : MachineContext) (cfg : Config)
    (msg marker front back : Chars) (hv : ctx.Valid)
    (hmk : cfg.do_padding = true →
      preprocess_message marker ctx.alphabet = marker)
    (hfr : cfg.do_padding = true →
      preprocess_message front ctx.alphabet = front)
    (hbk : cfg.do_padding = true →
      preprocess_message back ctx.alphabet = back)
    (hm : cfg.do_padding = true → marker ≠ [])
    (hfind : cfg.do_padding = true →
      pyFind (front ++ marker ++ preprocess_message msg ctx.alphabet ++
        marker ++ back) marker = some front.length)
    (hrfind : cfg.do_padding = true →
      pyRFind (front ++ marker ++ preprocess_message msg ctx.alphabet ++
        marker ++ back) marker =
        some (front.length + marker.length +
          (preprocess_message msg ctx.alphabet).length)) :
    ∃ cipher,
      encrypt ctx cfg msg marker front back =
        .ok (cipher, if cfg.do_padding then some marker else none) ∧
      decrypt ctx cfg cipher (if cfg.do_padding then some marker else none) =
        .ok (replaceHashes (preprocess_message msg ctx.alphabet)) := by
  have hvP : (pipelineCtx ctx cfg).Valid := hv
  have halEq : ctx.alphabet = ctx.machine.kb.alphabet := hv.2.1
  cases hpad : cfg.do_padding with
  | false =>
    have hmem : ∀ c ∈ preprocess_message msg ctx.alphabet,
        c ∈ (pipelineCtx ctx cfg).machine.kb.alphabet := by
      intro c hcmem
      have h := preprocess_mem msg ctx.alphabet c hcmem
      rw [halEq] at h
      exact h
    obtain ⟨cipher, hp1, hp2⟩ :=
      passes_invol (pipelineCtx ctx cfg) cfg hvP _ hmem
    refine ⟨cipher, ?_, ?_⟩
    · rw [encrypt_eq_passes]
      simp only [hpad, Bool.false_eq_true, if_false]
      rw [hp1]
      rfl
    · simp only [hpad, Bool.false_eq_true, if_false]
      unfold decrypt
      simp only [hpad]
      rw [hp2]
      rfl
  | true =>
    have hcleq : preprocess_message
        (pad_message front (marker ++ msg ++ marker) back) ctx.alphabet =
        front ++ marker ++ preprocess_message msg ctx.alphabet ++
          marker ++ back := by
      unfold pad_message
      rw [preprocess_append, preprocess_append, preprocess_append,
        preprocess_append, hmk hpad, hfr hpad, hbk hpad]
      simp [List.append_assoc]
    have hmem : ∀ c ∈ preprocess_message
        (pad_message front (marker ++ msg ++ marker) back) ctx.alphabet,
        c ∈ (pipelineCtx ctx cfg).machine.kb.alphabet := by
      intro c hcmem
      have h := preprocess_mem _ ctx.alphabet c hcmem
      rw [halEq] at h
      exact h
    obtain ⟨cipher, hp1, hp2⟩ :=
      passes_invol (pipelineCtx ctx cfg) cfg hvP _ hmem
    refine ⟨cipher, ?_, ?_⟩
    · rw [encrypt_eq_passes]
      simp only [hpad, if_true]
      rw [hp1]
      rfl
    · simp only [hpad, if_true]
      unfold decrypt
      simp only [hpad]
      rw [hp2]
      simp only [bind_ok_eq]
      rw [hcleq,
        extract_planted front marker (preprocess_message msg ctx.alphabet)
          back (hm hpad) (hfind hpad) (hrfind hpad)]
      rfl

theorem claim_C1_pipeline_roundtrip_witness :
    ∃ cipher,
      encrypt legacyCtx defaultCfg "HELLO".toList "QQQQQ".toList [] [] =
        .ok (cipher,
          if defaultCfg.do_padding then some "QQQQQ".toList else none) ∧
      decrypt legacyCtx defaultCfg cipher
          (if defaultCfg.do_padding then some "QQQQQ".toList else none) =
        .ok (replaceHashes
          (preprocess_message "HELLO".toList legacyCtx.alphabet)) :=
  claim_C1_pipeline_roundtrip legacyCtx defaultCfg "HELLO".toList
    "QQQQQ".toList [] [] (by decide) (fun _ => by decide) (fun _ => by decide)
    (fun _ => by decide) (fun _ => by decide) (fun _ => by decide)
    (fun _ => by decide)

/-- C1 counterexample: on a valid 4-symbol machine whose alphabet contains
`'#'` (padding off, single pass, as the claim quantifies over all flag
settings), the message "#" decrypts to " ", not to `preprocess("#") = "#"`
— `decrypt` ends with `replace("#", " ")`. -/
theorem claim_C1_counterexample :
    ((encrypt tinyCtx tinyCfg ['#'] [] [] []).bind fun p =>
      decrypt tinyCtx tinyCfg p.1 p.2) = .ok [' '] ∧
    preprocess_message ['#'] tinyCtx.alphabet = ['#'] ∧
    ([' '] : Chars) ≠ ['#'] :=
  ⟨rfl, rfl, by decide⟩

/-- C7 (amended): padding round-trip holds for every random outcome in
which the planted front marker is the first occurrence of the marker in
the padded string and the planted back marker is the last (the random
noise can otherwise contain the marker and shift the cut points). -/
theorem claim_C7_padding_roundtrip (marker m front back : Chars)
    (hm : marker ≠ [])
    (hf : pyFind (pad_message front (marker ++ m ++ marker) back) marker =
      some front.length)
    (hr : pyRFind (pad_message front (marker ++ m ++ marker) back) marker =
      some (front.length + marker.length + m.length)) :
    extract_message (pad_message front (marker ++ m ++ marker) back) marker =
      .ok m := by
  have hass : pad_message front (marker ++ m ++ marker) back =
      front ++ marker ++ m ++ marker ++ back := by
    simp [pad_message, List.append_assoc]
  rw [hass] at hf hr ⊢
  exact extract_planted front marker m back hm hf hr

theorem claim_C7_padding_roundtrip_witness :
    extract_message
        (pad_message [] (['A', 'B'] ++ ['C'] ++ ['A', 'B']) []) ['A', 'B'] =
      .ok ['C'] :=
  claim_C7_padding_roundtrip ['A', 'B'] ['C'] [] [] (by decide) (by decide)
    (by decide)

/-- C7 counterexample: with marker "A", message "B", and the reachable
random outcome front = "A", back = "", the extraction returns "AB", not
"B" — the random prefix contained the marker and became the first
occurrence. -/
theorem claim_C7_counterexample :
    extract_message (pad_message ['A'] (['A'] ++ ['B'] ++ ['A']) []) ['A'] =
      .ok ['A', 'B'] ∧ (['A', 'B'] : Chars) ≠ ['B'] :=
  ⟨rfl, by decide⟩

/-- C8: `extract_message` fails exactly when the marker has fewer than two
occurrences in the text; otherwise it returns the substring strictly
between the first and last occurrence; and `CipherPipeline.decrypt`
propagates the failure to the caller instead of returning partial data. -/
theorem claim_C8_marker_errors (full marker : Chars) :
    ((∃ e, extract_message full marker = .error e) ↔
      (occurrencesOf full marker).length < 2) ∧
    (∀ i j, pyFind full marker = some i → pyRFind full marker = some j →
      i ≠ j → extract_message full marker =
        .ok ((full.drop (i + marker.length)).take (j - (i + marker.length)))) ∧
    (∀ (ctx : MachineContext) (cfg : Config) (cipher mk fp : Chars)
      (e : String),
      cfg.do_padding = true →
      decryptPasses (pipelineCtx ctx cfg) cfg cipher = .ok fp →
      extract_message fp mk = .error e →
      decrypt ctx cfg cipher (some mk) = .error e) := by
  refine ⟨?_, ?_, ?_⟩
  · have hpw := occurrencesOf_pairwise full marker
    constructor
    · rintro ⟨e, he⟩
      by_contra hlen
      push_neg at hlen
      rcases hl : occurrencesOf full marker with _ | ⟨x, _ | ⟨y, rest⟩⟩
      · rw [hl] at hlen; simp at hlen
      · rw [hl] at hlen; simp at hlen
      · rw [hl] at hpw
        have hx : (occurrencesOf full marker).head? = some x := by
          rw [hl]; rfl
        have hyex : (y :: rest).getLast? = some ((y :: rest).getLast (by simp)) :=
          List.getLast?_eq_getLast _ _
        have hy : (occurrencesOf full marker).getLast? =
            some ((y :: rest).getLast (by simp)) := by
          rw [hl, List.getLast?_cons_cons]
          exact hyex
        have hlt : x < (y :: rest).getLast (by simp) := by
          apply head_lt_getLast_of_two (l := occurrencesOf full marker)
            (occurrencesOf_pairwise full marker) hx hy
          rw [hl]; simp
        have : extract_message full marker =
            .ok ((full.drop (x + marker.length)).take
              ((y :: rest).getLast (by simp) - (x + marker.length))) := by
          unfold extract_message pyFind pyRFind
          rw [hx, hy]
          dsimp only
          rw [if_neg (Nat.ne_of_lt hlt)]
        rw [this] at he
        cases he
    · intro hlen
      rcases hl : occurrencesOf full marker with _ | ⟨x, _ | ⟨y, rest⟩⟩
      · refine ⟨"Markers not found - padding removal failed", ?_⟩
        unfold extract_message pyFind pyRFind
        rw [hl]
        rfl
      · refine ⟨"Markers not found - padding removal failed", ?_⟩
        unfold extract_message pyFind pyRFind
        rw [hl]
        simp
      · rw [hl] at hlen
        simp at hlen
        omega
  · intro i j hi hj hij
    unfold extract_message
    rw [hi, hj]
    dsimp only
    rw [if_neg hij]
  · intro ctx cfg cipher mk fp e hpad hp hx
    unfold decrypt
    simp only [hpad]
    rw [hp]
    show (extract_message fp mk).bind _ = _
    rw [hx]
    rfl

theorem claim_C8_marker_errors_witness :
    decrypt legacyCtx singlePassCfg "AAAAA".toList (some ['Q', 'Q']) =
      .error "Markers not found - padding removal failed" :=
  (claim_C8_marker_errors "BDZGO".toList ['Q', 'Q']).2.2 legacyCtx
    singlePassCfg "AAAAA".toList ['Q', 'Q'] "BDZGO".toList
    "Markers not found - padding removal failed" rfl rfl rfl

/-- C9: on a validly constructed engine, `Inop.encypher` never maps a
symbol of the alphabet to itself. -/
theorem claim_C9_no_self_encipher (M : Inop) (hv : M.Valid) (c : Char)
    (hc : c ∈ M.kb.alphabet) :
    ∃ c', (M.encypher c).1 = .ok c' ∧ c' ≠ c := by
  obtain ⟨c', hok, -, hne, -⟩ :=
    Inop.encChar_spec M.stepped (Inop.stepped_valid hv) hc
  exact ⟨c', hok, hne⟩

theorem claim_C9_no_self_encipher_witness :
    ∃ c', (legacyM.encypher 'A').1 = .ok c' ∧ c' ≠ 'A' :=
  claim_C9_no_self_encipher legacyM (by decide) 'A' (by decide)

theorem stepRotorList_getLast (rs : List Rotor) {r : Rotor}
    (h : rs.getLast? = some r) :
    (Inop.stepRotorList rs).getLast? = some (r.step).2 := by
  have hcas : ∀ (x : Rotor) (xs : List Rotor), ∃ tl,
      cascade (x :: xs) = (x.step).2 :: tl := by
    intro x xs
    simp only [cascade]
    split
    · exact ⟨cascade xs, rfl⟩
    · exact ⟨xs, rfl⟩
  have hgen : ∀ rs' : List Rotor, rs'.getLast? = some r →
      ((cascade rs'.reverse).reverse).getLast? = some (r.step).2 := by
    intro rs' h'
    have hh : rs'.reverse.head? = some r := by
      rw [List.head?_reverse]; exact h'
    rcases hrev : rs'.reverse with _ | ⟨x, xs⟩
    · rw [hrev] at hh; cases hh
    · rw [hrev] at hh
      have hx : x = r := Option.some.inj hh
      subst hx
      obtain ⟨tl, htl⟩ := hcas x xs
      rw [htl, List.getLast?_reverse]
      rfl
  rcases rs with _ | ⟨a, _ | ⟨b, _ | ⟨c, _ | ⟨d, tl⟩⟩⟩⟩
  · cases h
  · exact hgen [a] h
  · exact hgen [a, b] h
  · have hc : c = r := by simpa using h
    subst hc
    simp only [Inop.stepRotorList]
    split_ifs <;> rfl
  · exact hgen (a :: b :: c :: d :: tl) h

/-- C10: `Inop.encypher` steps the rotors before validating the input
symbol: an out-of-alphabet symbol raises the keyboard's invalid-symbol
error, yet the machine is left in the same post-step state as on a valid
keypress — in particular it is not left unchanged. -/
theorem claim_C10_steps_before_validation (M : Inop) (c : Char)
    (hv : M.Valid) (hc : c ∉ M.kb.alphabet) (hr : M.rotors ≠ [])
    (hsz : 1 < M.kb.alphabet.length) :
    (M.encypher c).1 = .error "Invalid character for current alphabet." ∧
    (M.encypher c).2 = M.stepped ∧
    (∀ d : Char, (M.encypher d).2 = M.stepped) ∧
    (M.encypher c).2 ≠ M := by
  refine ⟨?_, rfl, fun d => rfl, ?_⟩
  · show Inop.encChar M.stepped c = _
    unfold Inop.encChar Keyboard.forward
    rw [if_neg (show ¬(List.contains M.stepped.kb.alphabet c = true) from
      fun h => hc (List.elem_iff.1 h))]
    rfl
  · intro heq
    have hro : Inop.stepRotorList M.rotors = M.rotors :=
      congrArg Inop.rotors heq
    have hlast := List.getLast?_eq_getLast M.rotors hr
    have hstep := stepRotorList_getLast M.rotors hlast
    rw [hro, hlast] at hstep
    have heq2 : M.rotors.getLast hr = ((M.rotors.getLast hr).step).2 :=
      Option.some.inj hstep
    have h2 : (M.rotors.getLast hr).position =
        ((M.rotors.getLast hr).position + 1) % (M.rotors.getLast hr).size :=
      congrArg Rotor.position heq2
    have hvlast : (M.rotors.getLast hr).Valid M.kb.alphabet :=
      hv.2.2.2.2.1 _ (List.getLast_mem hr)
    have hslen : (M.rotors.getLast hr).size = M.kb.alphabet.length :=
      Rotor.valid_size hvlast
    have hplt : (M.rotors.getLast hr).position < (M.rotors.getLast hr).size :=
      hvlast.2.2.2.2.2.2.2.1
    rcases Nat.lt_or_ge ((M.rotors.getLast hr).position + 1)
        ((M.rotors.getLast hr).size) with hlt | hge
    · rw [Nat.mod_eq_of_lt hlt] at h2
      omega
    · have hpe : (M.rotors.getLast hr).position + 1 =
          (M.rotors.getLast hr).size := by omega
      rw [← hpe, Nat.mod_self] at h2
      omega

theorem claim_C10_steps_before_validation_witness :
    (legacyM.encypher 'a').1 =
      .error "Invalid character for current alphabet." ∧
    (legacyM.encypher 'a').2 = legacyM.stepped ∧
    (∀ d : Char, (legacyM.encypher d).2 = legacyM.stepped) ∧
    (legacyM.encypher 'a').2 ≠ legacyM :=
  claim_C10_steps_before_validation legacyM 'a' (by decide) (by decide)
    (by decide) (by decide)

end WorldEngine
